import Mathlib

/-!
Verification of the tempo-map, note-reconstruction, click-generation and
playback-length logic of the `instruction_synth` repository.

The Python sources are shallowly embedded: Python `float` arithmetic is
modelled over `ℚ`, Python `int` over `ℤ`/`ℕ`, fallible code returns
`Option`, and Python dictionaries keyed by pitch are modelled as functions
`ℕ → Option _` / `ℕ → List _`.
-/

/- ===================== src/utils.py ===================== -/

/-- `utils.ticks_to_seconds` (src/utils.py lines 54-59):
`return ticks / ticks_per_beat * microseconds_per_beat / 1000000`. -/
def ticks_to_seconds (ticks ticks_per_beat microseconds_per_beat : ℚ) : ℚ :=
  ticks / ticks_per_beat * microseconds_per_beat / 1000000

/-- The binary-search loop of Python's `bisect.bisect_right`
(`while lo < hi: mid = (lo+hi)//2; if x < a[mid]: hi = mid else: lo = mid+1`). -/
def bisectRightAux (a : List ℤ) (x : ℤ) (lo hi : ℕ) : ℕ :=
  if h : lo < hi then
    let mid := (lo + hi) / 2
    if x < a.getD mid 0 then bisectRightAux a x lo mid
    else bisectRightAux a x (mid + 1) hi
  else lo
termination_by hi - lo
decreasing_by
  · omega
  · omega

/-- Python's `bisect.bisect_right(a, x)` with default bounds. -/
def bisect_right (a : List ℤ) (x : ℤ) : ℕ :=
  bisectRightAux a x 0 a.length

/-- `find_le` from `utils.current_tick_to_seconds` (src/utils.py lines 69-74):
`i = bisect_right(a, x); if i: return i-1, a[i-1]; raise ValueError`.
The `raise` is modelled as `none`. -/
def find_le (a : List ℤ) (x : ℤ) : Option (ℕ × ℤ) :=
  let i := bisect_right a x
  if i ≠ 0 then some (i - 1, a.getD (i - 1) 0) else none

/-- One entry of the `tempo_changes` list used by `utils.current_tick_to_seconds`:
the tuple `(tick, microseconds_per_beat, current_time_in_seconds)`
(src/utils.py line 66 and line 102). -/
structure TempoChange where
  tick : ℤ
  uspb : ℕ
  startSeconds : ℚ
deriving DecidableEq

instance : Inhabited TempoChange := ⟨⟨0, 0, 0⟩⟩

/-- `utils.current_tick_to_seconds` (src/utils.py lines 62-76).  The
`ValueError` raised by `find_le` propagates as `none`. -/
def current_tick_to_seconds (current_tick : ℤ) (tempo_changes : List TempoChange)
    (ticks_per_beat : ℚ) : Option ℚ :=
  let t := tempo_changes.map (·.tick)
  match find_le t current_tick with
  | none => none
  | some (index, tick) =>
      some ((tempo_changes.getD index default).startSeconds +
        ticks_to_seconds ((current_tick : ℚ) - (tick : ℚ)) ticks_per_beat
          ((tempo_changes.getD index default).uspb : ℚ))

/- ===================== binary-search correctness ===================== -/

theorem bisectRightAux_spec (a : List ℤ) (x : ℤ) (k : ℕ) :
    ∀ lo hi, lo ≤ k → k ≤ hi → hi ≤ a.length →
    (∀ i, lo ≤ i → i < k → a.getD i 0 ≤ x) →
    (∀ i, k ≤ i → i < hi → x < a.getD i 0) →
    bisectRightAux a x lo hi = k := by
  intro lo hi
  induction lo, hi using bisectRightAux.induct a x with
  | case1 lo hi h mid hlt ih =>
    intro hk1 hk2 hhi hbelow habove
    have hmid1 : lo ≤ mid := by omega
    have hmid2 : mid < hi := by omega
    have hkmid : k ≤ mid := by
      by_contra hc
      have : a.getD mid 0 ≤ x := hbelow mid hmid1 (by omega)
      exact absurd hlt (not_lt.mpr this)
    rw [bisectRightAux]
    simp only [dif_pos h]
    rw [if_pos hlt]
    exact ih hk1 hkmid (by omega) hbelow (fun i h1 h2 => habove i h1 (by omega))
  | case2 lo hi h mid hge ih =>
    intro hk1 hk2 hhi hbelow habove
    have hmid1 : lo ≤ mid := by omega
    have hmid2 : mid < hi := by omega
    have hkmid : mid + 1 ≤ k := by
      by_contra hc
      have : x < a.getD mid 0 := habove mid (by omega) hmid2
      exact absurd this hge
    rw [bisectRightAux]
    simp only [dif_pos h]
    rw [if_neg hge]
    exact ih hkmid hk2 hhi (fun i h1 h2 => hbelow i (by omega) h2) habove
  | case3 lo hi h =>
    intro hk1 hk2 _ _ _
    rw [bisectRightAux]
    simp only [dif_neg h]
    omega

/-- In a sorted list, membership of an index in the `≤ x` prefix is equivalent
to the element at that index being `≤ x`. -/
theorem sorted_le_prefix_iff (x : ℤ) :
    ∀ (a : List ℤ), a.Pairwise (· ≤ ·) →
    ∀ j, j < a.length →
    (a.getD j 0 ≤ x ↔ j < (a.takeWhile (fun v => decide (v ≤ x))).length) := by
  intro a
  induction a with
  | nil => intro _ j hj; simp at hj
  | cons h tl ih =>
    intro hs j hj
    rw [List.pairwise_cons] at hs
    by_cases hh : h ≤ x
    · have : (h :: tl).takeWhile (fun v => decide (v ≤ x)) =
        h :: tl.takeWhile (fun v => decide (v ≤ x)) := by
        rw [List.takeWhile_cons]
        simp [hh]
      rw [this]
      cases j with
      | zero => simpa using hh
      | succ j =>
        simp only [List.getD_cons_succ, List.length_cons]
        rw [ih hs.2 j (by simpa using hj)]
        omega
    · have : (h :: tl).takeWhile (fun v => decide (v ≤ x)) = [] := by
        rw [List.takeWhile_cons]
        simp [hh]
      rw [this]
      simp only [List.length_nil, Nat.not_lt_zero, iff_false]
      cases j with
      | zero => simpa using hh
      | succ j =>
        simp only [List.getD_cons_succ]
        intro hle
        have hj' : j < tl.length := by simpa using hj
        have hmem : tl.getD j 0 ∈ tl := by
          rw [List.getD_eq_getElem tl 0 hj']
          exact List.getElem_mem hj'
        have := hs.1 _ hmem
        omega

theorem takeWhile_length_le {α : Type} (p : α → Bool) :
    ∀ (l : List α), (l.takeWhile p).length ≤ l.length := by
  intro l
  induction l with
  | nil => simp
  | cons h t ih =>
    rw [List.takeWhile_cons]
    by_cases hp : p h
    · simp only [hp, if_true, List.length_cons]
      omega
    · simp only [hp]
      simp

theorem bisect_right_sorted (a : List ℤ) (x : ℤ) (hs : a.Pairwise (· ≤ ·)) :
    bisect_right a x = (a.takeWhile (fun v => decide (v ≤ x))).length := by
  have hlen : (a.takeWhile (fun v => decide (v ≤ x))).length ≤ a.length :=
    takeWhile_length_le _ a
  apply bisectRightAux_spec a x _ 0 a.length (Nat.zero_le _) hlen le_rfl
  · intro i _ hi
    exact (sorted_le_prefix_iff x a hs i (by omega)).mpr hi
  · intro i hi hilen
    by_contra hc
    have := (sorted_le_prefix_iff x a hs i hilen).mp (by omega)
    omega

/-- Monotonicity of indexed access in a `≤`-sorted list. -/
theorem sorted_getD_mono (a : List ℤ) (hs : a.Pairwise (· ≤ ·)) (i j : ℕ)
    (hij : i ≤ j) (hj : j < a.length) : a.getD i 0 ≤ a.getD j 0 := by
  rcases Nat.lt_or_ge i j with h | h
  · rw [List.getD_eq_getElem a 0 (by omega), List.getD_eq_getElem a 0 hj]
    exact List.pairwise_iff_getElem.mp hs i j (by omega) hj h
  · have : i = j := by omega
    subst this
    exact le_rfl

/-- If a `tempo_changes` list is strictly sorted by tick and the queried tick
falls at or after segment `i` and strictly before every later segment, then
`current_tick_to_seconds` returns the linear interpolation inside segment `i`. -/
theorem current_tick_to_seconds_at_index (tc : List TempoChange) (x : ℤ) (tpb : ℚ)
    (i : ℕ) (hi : i < tc.length)
    (hsorted : (tc.map (·.tick)).Pairwise (· < ·))
    (hle : (tc.getD i default).tick ≤ x)
    (habove : ∀ j, i < j → j < tc.length → x < (tc.getD j default).tick) :
    current_tick_to_seconds x tc tpb =
      some ((tc.getD i default).startSeconds +
        ((x : ℚ) - ((tc.getD i default).tick : ℚ)) / tpb *
          ((tc.getD i default).uspb : ℚ) / 1000000) := by
  set a := tc.map (·.tick) with ha
  have hlen : a.length = tc.length := by simp [ha]
  have hgetD : ∀ j, j < tc.length → a.getD j 0 = (tc.getD j default).tick := by
    intro j hj
    rw [List.getD_eq_getElem a 0 (by omega), List.getD_eq_getElem tc default hj]
    simp [ha]
  have hsle : a.Pairwise (· ≤ ·) := hsorted.imp le_of_lt
  -- the `≤ x` prefix of `a` has length exactly `i + 1`
  have htw : (a.takeWhile (fun v => decide (v ≤ x))).length = i + 1 := by
    have h1 : i < (a.takeWhile (fun v => decide (v ≤ x))).length := by
      rw [← sorted_le_prefix_iff x a hsle i (by omega)]
      rw [hgetD i hi]; exact hle
    have h2 : ¬ (i + 1 < (a.takeWhile (fun v => decide (v ≤ x))).length) := by
      intro hc
      have hlt : i + 1 < a.length := by
        have := takeWhile_length_le (fun v => decide (v ≤ x)) a
        omega
      have := (sorted_le_prefix_iff x a hsle (i+1) hlt).mpr hc
      rw [hgetD (i+1) (by omega)] at this
      have := habove (i+1) (by omega) (by omega)
      omega
    omega
  have hbr : bisect_right a x = i + 1 := by rw [bisect_right_sorted a x hsle, htw]
  unfold current_tick_to_seconds find_le
  rw [← ha]
  simp only [hbr, Nat.add_sub_cancel, ne_eq, Nat.succ_ne_zero, not_false_eq_true, if_pos]
  rw [hgetD i hi]
  simp [ticks_to_seconds]

/-- C1, general part packaged for reuse in the proof below. -/
theorem exists_greatest_segment (tc : List TempoChange) (x : ℤ)
    (hsorted : (tc.map (·.tick)).Pairwise (· < ·))
    (hex : ∃ s ∈ tc, s.tick ≤ x) :
    ∃ i, i < tc.length ∧ (tc.getD i default).tick ≤ x ∧
      (∀ j, j < tc.length → (tc.getD j default).tick ≤ x →
        (tc.getD j default).tick ≤ (tc.getD i default).tick) ∧
      (∀ j, i < j → j < tc.length → x < (tc.getD j default).tick) := by
  set a := tc.map (·.tick) with ha
  have hlen : a.length = tc.length := by simp [ha]
  have hgetD : ∀ j, j < tc.length → a.getD j 0 = (tc.getD j default).tick := by
    intro j hj
    rw [List.getD_eq_getElem a 0 (by omega), List.getD_eq_getElem tc default hj]
    simp [ha]
  have hsle : a.Pairwise (· ≤ ·) := hsorted.imp le_of_lt
  obtain ⟨s, hsmem, hsx⟩ := hex
  have hne : tc.length ≠ 0 := by
    intro hc
    rw [List.length_eq_zero] at hc
    subst hc
    simp at hsmem
  -- index of the witness element
  obtain ⟨js, hjs, hjseq⟩ := List.getElem_of_mem hsmem
  have h0 : a.getD 0 0 ≤ x := by
    calc a.getD 0 0 ≤ a.getD js 0 := sorted_getD_mono a hsle 0 js (by omega) (by omega)
    _ = (tc.getD js default).tick := hgetD js hjs
    _ = s.tick := by rw [List.getD_eq_getElem tc default hjs, hjseq]
    _ ≤ x := hsx
  set k := (a.takeWhile (fun v => decide (v ≤ x))).length with hk
  have hkle : k ≤ a.length := takeWhile_length_le _ a
  have hkpos : 0 < k := by
    rw [hk, ← sorted_le_prefix_iff x a hsle 0 (by omega)]
    exact h0
  refine ⟨k - 1, by omega, ?_, ?_, ?_⟩
  · rw [← hgetD (k-1) (by omega)]
    exact (sorted_le_prefix_iff x a hsle (k-1) (by omega)).mpr (by omega)
  · intro j hj hjx
    have : j < k := by
      rw [hk, ← sorted_le_prefix_iff x a hsle j (by omega)]
      rw [hgetD j hj]; exact hjx
    rw [← hgetD j hj, ← hgetD (k-1) (by omega)]
    exact sorted_getD_mono a hsle j (k-1) (by omega) (by omega)
  · intro j hlt hj
    by_contra hc
    have : j < k := by
      rw [hk, ← sorted_le_prefix_iff x a hsle j (by omega)]
      rw [hgetD j hj]; omega
    omega

/- ===================== Claims C1, C2, C10 ===================== -/

/-- C1: For every tick at or after the start tick of some tempo segment, the
tick-to-seconds conversion locates the segment with the greatest
`start_tick ≤ tick` and returns
`segment.start_seconds + (tick - segment.start_tick) / ticks_per_beat *
segment.microseconds_per_beat / 1_000_000`; in particular, for a single
segment of 500000 µs/beat starting at tick 0 / 0 s with `ticks_per_beat = 480`,
the conversion of tick 480 is exactly 0.5 seconds. -/
theorem C1_tick_to_seconds_locates_greatest_segment :
    (∀ (tc : List TempoChange) (tick : ℤ) (tpb : ℚ),
      (tc.map (·.tick)).Pairwise (· < ·) →
      (∃ s ∈ tc, s.tick ≤ tick) →
      ∃ i, i < tc.length ∧ (tc.getD i default).tick ≤ tick ∧
        (∀ j, j < tc.length → (tc.getD j default).tick ≤ tick →
          (tc.getD j default).tick ≤ (tc.getD i default).tick) ∧
        current_tick_to_seconds tick tc tpb =
          some ((tc.getD i default).startSeconds +
            ((tick : ℚ) - ((tc.getD i default).tick : ℚ)) / tpb *
              ((tc.getD i default).uspb : ℚ) / 1000000)) ∧
    current_tick_to_seconds 480 [⟨0, 500000, 0⟩] 480 = some (1/2) := by
  constructor
  · intro tc tick tpb hsorted hex
    obtain ⟨i, hi, hle, hmax, habove⟩ := exists_greatest_segment tc tick hsorted hex
    exact ⟨i, hi, hle, hmax, current_tick_to_seconds_at_index tc tick tpb i hi hsorted hle habove⟩
  · rw [current_tick_to_seconds_at_index [⟨0, 500000, 0⟩] 480 480 0 (by simp)
      (by simp) (by simp) (by intro j h1 h2; simp at h2; omega)]
    norm_num

/-- Witness for C1: the general part applied at the single-segment list. -/
theorem C1_witness :
    ∃ i, i < ([⟨0, 500000, 0⟩] : List TempoChange).length ∧
      (([⟨0, 500000, 0⟩] : List TempoChange).getD i default).tick ≤ 480 ∧
      (∀ j, j < ([⟨0, 500000, 0⟩] : List TempoChange).length →
        (([⟨0, 500000, 0⟩] : List TempoChange).getD j default).tick ≤ 480 →
        (([⟨0, 500000, 0⟩] : List TempoChange).getD j default).tick ≤
          (([⟨0, 500000, 0⟩] : List TempoChange).getD i default).tick) ∧
      current_tick_to_seconds 480 [⟨0, 500000, 0⟩] 480 =
        some ((([⟨0, 500000, 0⟩] : List TempoChange).getD i default).startSeconds +
          ((480 : ℚ) - ((([⟨0, 500000, 0⟩] : List TempoChange).getD i default).tick : ℚ)) / 480 *
            ((([⟨0, 500000, 0⟩] : List TempoChange).getD i default).uspb : ℚ) / 1000000) :=
  C1_tick_to_seconds_locates_greatest_segment.1 [⟨0, 500000, 0⟩] 480 480
    (by simp) ⟨⟨0, 500000, 0⟩, by simp, by simp⟩

/-- C2: within one tempo segment (at or after its start tick, strictly before
the next segment's start tick) the tick-to-seconds conversion is strictly
increasing, assuming a positive ticks-per-beat and a positive tempo value. -/
theorem C2_tick_to_seconds_strict_mono (tc : List TempoChange) (tpb : ℚ)
    (i : ℕ) (t1 t2 : ℤ)
    (hsorted : (tc.map (·.tick)).Pairwise (· < ·))
    (htpb : 0 < tpb)
    (hi : i < tc.length)
    (huspb : 0 < (tc.getD i default).uspb)
    (hstart : (tc.getD i default).tick ≤ t1)
    (ht12 : t1 < t2)
    (hnext : i + 1 < tc.length → t2 < (tc.getD (i+1) default).tick) :
    ∃ s1 s2, current_tick_to_seconds t1 tc tpb = some s1 ∧
      current_tick_to_seconds t2 tc tpb = some s2 ∧ s1 < s2 := by
  have hgetD : ∀ j, j < tc.length →
      (tc.map (·.tick)).getD j 0 = (tc.getD j default).tick := by
    intro j hj
    rw [List.getD_eq_getElem _ 0 (by simpa using hj), List.getD_eq_getElem tc default hj]
    simp
  have habove2 : ∀ j, i < j → j < tc.length → t2 < (tc.getD j default).tick := by
    intro j hij hj
    have hi1 : i + 1 < tc.length := by omega
    have h1 : t2 < (tc.getD (i+1) default).tick := hnext hi1
    have h2 : (tc.getD (i+1) default).tick ≤ (tc.getD j default).tick := by
      rw [← hgetD (i+1) hi1, ← hgetD j hj]
      exact sorted_getD_mono _ (hsorted.imp le_of_lt) (i+1) j (by omega) (by simpa using hj)
    omega
  have habove1 : ∀ j, i < j → j < tc.length → t1 < (tc.getD j default).tick := by
    intro j hij hj
    have := habove2 j hij hj
    omega
  refine ⟨_, _, current_tick_to_seconds_at_index tc t1 tpb i hi hsorted hstart habove1,
    current_tick_to_seconds_at_index tc t2 tpb i hi hsorted (by omega) habove2, ?_⟩
  have hc : ((t1 : ℚ) - ((tc.getD i default).tick : ℚ)) <
      ((t2 : ℚ) - ((tc.getD i default).tick : ℚ)) := by
    have : (t1 : ℚ) < (t2 : ℚ) := by exact_mod_cast ht12
    linarith
  have hu : (0 : ℚ) < ((tc.getD i default).uspb : ℚ) := by exact_mod_cast huspb
  have htpbinv : (0 : ℚ) < tpb⁻¹ := inv_pos.mpr htpb
  rw [div_eq_mul_inv, div_eq_mul_inv, div_eq_mul_inv, div_eq_mul_inv]
  apply add_lt_add_left
  apply mul_lt_mul_of_pos_right _ (by norm_num : (0:ℚ) < ((1000000:ℚ))⁻¹)
  apply mul_lt_mul_of_pos_right _ hu
  exact mul_lt_mul_of_pos_right hc htpbinv

/-- Witness for C2: ticks 0 and 480 inside the single 500000 µs/beat segment. -/
theorem C2_witness :
    ∃ s1 s2, current_tick_to_seconds 0 [⟨0, 500000, 0⟩] 480 = some s1 ∧
      current_tick_to_seconds 480 [⟨0, 500000, 0⟩] 480 = some s2 ∧ s1 < s2 :=
  C2_tick_to_seconds_strict_mono [⟨0, 500000, 0⟩] 480 0 0 480
    (by simp) (by norm_num) (by simp) (by norm_num) (by norm_num) (by norm_num)
    (by intro h; simp at h)

/-- C10: the tick-to-seconds conversion is partial: it returns no value
(the source raises `ValueError`) on an empty tempo-change list, and on any
queried tick strictly below the start tick of the first tempo change. -/
theorem C10_tick_to_seconds_raises (tick : ℤ) (tpb : ℚ) (tc : List TempoChange)
    (c : TempoChange) :
    current_tick_to_seconds tick [] tpb = none ∧
    ((tc.map (·.tick)).Pairwise (· < ·) → tc.head? = some c → tick < c.tick →
      current_tick_to_seconds tick tc tpb = none) := by
  constructor
  · have hbr : bisect_right ([] : List ℤ) tick = 0 :=
      bisectRightAux_spec [] tick 0 0 0 le_rfl le_rfl (by simp) (by omega) (by omega)
    unfold current_tick_to_seconds find_le
    simp [hbr]
  · intro hsorted hhead hlt
    set a := tc.map (·.tick) with ha
    have hsle : a.Pairwise (· ≤ ·) := hsorted.imp le_of_lt
    have hhd : a.getD 0 0 = c.tick ∨ tc = [] := by
      cases tc with
      | nil => right; rfl
      | cons c0 rest =>
        left
        simp only [List.head?_cons, Option.some.injEq] at hhead
        subst hhead
        simp [ha]
    rcases hhd with hhd | hnil
    · have hlen : 0 < a.length := by
        cases tc with
        | nil => simp at hhead
        | cons c0 rest => simp [ha]
      have hk0 : (a.takeWhile (fun v => decide (v ≤ tick))).length = 0 := by
        by_contra hc
        have := (sorted_le_prefix_iff tick a hsle 0 hlen).mpr (by omega)
        rw [hhd] at this
        omega
      have hbr : bisect_right a tick = 0 := by
        rw [bisect_right_sorted a tick hsle, hk0]
      unfold current_tick_to_seconds find_le
      rw [← ha]
      simp [hbr]
    · subst hnil
      simp at hhead

/-- Witness for C10: querying tick -1 against a list whose first tempo change
starts at tick 0 yields no value. -/
theorem C10_witness :
    current_tick_to_seconds (-1) [⟨0, 500000, 0⟩] 480 = none :=
  (C10_tick_to_seconds_raises (-1) 480 [⟨0, 500000, 0⟩] ⟨0, 500000, 0⟩).2
    (by simp) rfl (by norm_num)

/- ===================== MIDI messages ===================== -/

/-- A parsed `mido` message, with the attributes the embedded code reads.
`time` is the delta time in ticks (non-negative for messages read from a
file); `tempo` is the 3-byte unsigned microseconds-per-beat payload of a
`set_tempo` meta message. -/
structure MidiMsg where
  time : ℕ
  isMeta : Bool
  type : String
  tempo : ℕ
  note : ℕ
  velocity : ℕ
  numerator : ℤ
  denominator : ℤ
deriving DecidableEq

/-- `mido.tick2second(tick, ticks_per_beat, tempo)`:
`scale = tempo * 1e-6 / ticks_per_beat; return tick * scale`
(library dependency, modelled from its documented definition). -/
def tick2second (tick ticks_per_beat tempo : ℕ) : ℚ :=
  (tick : ℚ) * ((tempo : ℚ) * (1 / 1000000) / (ticks_per_beat : ℚ))

/- ===================== utils.get_measure_starts ===================== -/

/-- Python `int()` on a float/rational: truncation toward zero. -/
def pyInt (q : ℚ) : ℤ :=
  if 0 ≤ q then ⌊q⌋ else ⌈q⌉

/-- Python `round()` on a float/rational: round half to even. -/
def pyRound (q : ℚ) : ℤ :=
  if q - ⌊q⌋ < 1/2 then ⌊q⌋
  else if 1/2 < q - ⌊q⌋ then ⌊q⌋ + 1
  else if 2 ∣ ⌊q⌋ then ⌊q⌋ else ⌊q⌋ + 1

/-- The element enumeration of Python `range(a, b, step)` for `step ≠ 0`. -/
def pyRangeAux (b step : ℤ) (a : ℤ) : List ℤ :=
  if h : 0 < step ∧ a < b then a :: pyRangeAux b step (a + step)
  else if h2 : step < 0 ∧ b < a then a :: pyRangeAux b step (a + step)
  else []
termination_by (if 0 < step then (b - a).toNat else (a - b).toNat)
decreasing_by
  · simp only [if_pos h.1]
    omega
  · have : ¬ 0 < step := by omega
    simp only [if_neg this]
    omega

/-- Python `range(a, b, step)`; `range` with a zero step raises `ValueError`,
modelled as `none`. -/
def pyRange (a b step : ℤ) : Option (List ℤ) :=
  if step = 0 then none else some (pyRangeAux b step a)

/-- State accumulated by the message loop of `utils.get_measure_starts`
(src/utils.py lines 87-107). `last_ts` models the Python locals
`last_numerator, last_denominator`, which are unbound (`none`) until the
first `time_signature` message is seen. -/
structure GMAcc where
  cur_uspb : ℕ
  cur_tick : ℤ
  cur_sec : ℚ
  tempo_changes : List TempoChange
  ts_changes : List (ℤ × ℤ × ℤ × ℚ)
  last_ts : Option (ℤ × ℤ)

/-- One iteration of the message loop of `utils.get_measure_starts`
(src/utils.py lines 93-107). -/
def gmStep (tpb : ℕ) (acc : GMAcc) (msg : MidiMsg) : GMAcc :=
  let acc := { acc with
    cur_tick := acc.cur_tick + (msg.time : ℤ),
    cur_sec := acc.cur_sec +
      ticks_to_seconds (msg.time : ℚ) (tpb : ℚ) (acc.cur_uspb : ℚ) }
  let acc := if msg.type = "set_tempo" then
      { acc with
        cur_uspb := msg.tempo,
        tempo_changes := acc.tempo_changes ++ [⟨acc.cur_tick, msg.tempo, acc.cur_sec⟩] }
    else acc
  if msg.type = "time_signature" then
    { acc with
      last_ts := some (msg.numerator, msg.denominator),
      ts_changes := acc.ts_changes ++ [(msg.numerator, msg.denominator, acc.cur_tick, acc.cur_sec)] }
  else acc

/-- The inner `for measure_start_tick in range(...)` loop of
`utils.get_measure_starts` (src/utils.py lines 123-126), producing
`(measure_number, start_tick, start_seconds)` entries and threading
`measure_count`.  A `ValueError` from `current_tick_to_seconds` propagates
as `none`. -/
def gmMeasures (tpb : ℕ) (tempo_changes : List TempoChange) :
    List ℤ → ℕ → Option (List (ℕ × ℤ × ℚ) × ℕ)
  | [], mc => some ([], mc)
  | tick :: rest, mc => do
    let sec ← current_tick_to_seconds tick tempo_changes (tpb : ℚ)
    let (entries, mcEnd) ← gmMeasures tpb tempo_changes rest (mc + 1)
    return ((mc + 1, tick, sec) :: entries, mcEnd)

/-- The `for i in range(len(time_signature_changes)-1)` loop of
`utils.get_measure_starts` (src/utils.py lines 115-126). -/
def gmPairs (tpb : ℕ) (tempo_changes : List TempoChange) :
    List (ℤ × ℤ × ℤ × ℚ) → ℕ → Option (List (ℕ × ℤ × ℚ))
  | (n, d, tick, _) :: b :: rest, mc => do
    let tpm := pyInt (((n : ℚ) * (tpb : ℚ) * 4) / (d : ℚ))
    let ticks ← pyRange tick b.2.2.1 tpm
    let (entries, mcMid) ← gmMeasures tpb tempo_changes ticks mc
    let restEntries ← gmPairs tpb tempo_changes (b :: rest) mcMid
    return entries ++ restEntries
  | _, _ => some []

/-- `utils.get_measure_starts` (src/utils.py lines 79-127) on track 0 of a
file with `ticks_per_beat = tpb`.  When the track contains no
`time_signature` message the Python code hits an unbound local
(`last_numerator`, line 110, `NameError`), modelled as `none`. -/
def get_measure_starts (tpb : ℕ) (track : List MidiMsg) : Option (List (ℕ × ℤ × ℚ)) :=
  let acc := track.foldl (gmStep tpb) ⟨500000, 0, 0, [], [], none⟩
  match acc.last_ts with
  | none => none
  | some (n, d) =>
    let tsc := acc.ts_changes ++ [(n, d, acc.cur_tick, acc.cur_sec)]
    gmPairs tpb acc.tempo_changes tsc 0

/-- The message loop never binds `last_numerator`/`last_denominator` when no
`time_signature` message is present. -/
theorem gmStep_foldl_last_ts (tpb : ℕ) :
    ∀ (l : List MidiMsg) (acc : GMAcc),
      (∀ m ∈ l, m.type ≠ "time_signature") →
      (l.foldl (gmStep tpb) acc).last_ts = acc.last_ts := by
  intro l
  induction l with
  | nil => intro acc _; rfl
  | cons m rest ih =>
    intro acc hl
    rw [List.foldl_cons]
    rw [ih _ (fun x hx => hl x (List.mem_cons_of_mem m hx))]
    have hm : m.type ≠ "time_signature" := hl m (List.mem_cons_self m rest)
    unfold gmStep
    by_cases hst : m.type = "set_tempo" <;> simp [hst, hm]

/-- C7 (code_bug): for a track with zero `time_signature` events,
`get_measure_starts` does not return a measure index at all: the source
raises `NameError` at src/utils.py line 110 (`last_numerator` is unbound),
modelled as `none`.  The claim (and §4.1 of the spec) instead requires the
call to succeed with at least one entry under a default 4/4 assumption. -/
theorem C7_no_time_signature_crashes (tpb : ℕ) (track : List MidiMsg)
    (h : ∀ m ∈ track, m.type ≠ "time_signature") :
    get_measure_starts tpb track = none := by
  simp only [get_measure_starts, gmStep_foldl_last_ts tpb track _ h]

/-- Witness for C7: the empty track (and, e.g., a lone `set_tempo` track)
yields no measure index. -/
theorem C7_witness :
    get_measure_starts 480 [⟨0, true, "set_tempo", 500000, 0, 0, 0, 0⟩] = none :=
  C7_no_time_signature_crashes 480 [⟨0, true, "set_tempo", 500000, 0, 0, 0, 0⟩]
    (by intro m hm; simp at hm; subst hm; simp)

/- ===================== daw_midi_annotator.MidiSummary ===================== -/

/-- One element of `MidiSummary.events`: the tuple
`(time_sec, kind, note, vel)` with kind "on" or "off"
(src/daw_midi_annotator.py line 115). -/
structure SummaryEvent where
  time : ℚ
  kind : String
  note : ℕ
  vel : ℕ
deriving DecidableEq

/-- The `MidiSummary` dataclass (src/daw_midi_annotator.py lines 108-116).
`notes` entries are `(start_sec, dur_sec, pitch)`; `tempo_changes` entries
are `(t_sec, us_per_beat)`. -/
structure MidiSummary where
  bpm : ℚ
  time_sig : ℤ × ℤ
  duration_sec : ℚ
  ticks_per_beat : ℕ
  notes : List (ℚ × ℚ × ℕ)
  events : List SummaryEvent
  tempo_changes : List (ℚ × ℕ)
deriving DecidableEq

/-- Loop state of `MidiSummary.from_file` (src/daw_midi_annotator.py lines
138-142).  The Python per-pitch dict of stacks `on_stack` is modelled as a
function from pitch to stack; Python appends/pops at the list end, which is
the head of the Lean list here. -/
structure FFState where
  t_sec : ℚ
  cur_tempo : ℕ
  tempo_changes : List (ℚ × ℕ)
  on_stack : ℕ → List (ℚ × ℕ)
  events : List SummaryEvent
  notes_tmp : List (ℚ × ℚ × ℕ)

/-- The `if msg.time: t_sec += ...` time advance of the `from_file` loop
(src/daw_midi_annotator.py lines 145-146). -/
def ffAdvance (tpq : ℕ) (st : FFState) (msg : MidiMsg) : FFState :=
  if msg.time ≠ 0 then
    { st with t_sec := st.t_sec + tick2second msg.time tpq st.cur_tempo }
  else st

/-- The message dispatch of the `from_file` loop, after the time advance
(src/daw_midi_annotator.py lines 147-161). -/
def ffBranch (st : FFState) (msg : MidiMsg) : FFState :=
  if msg.isMeta = true ∧ msg.type = "set_tempo" then
    { st with cur_tempo := msg.tempo,
              tempo_changes := st.tempo_changes ++ [(st.t_sec, msg.tempo)] }
  else if msg.isMeta = true then st
  else if msg.type = "note_on" ∧ msg.velocity > 0 then
    { st with on_stack := fun p =>
        if p = msg.note then (st.t_sec, msg.velocity) :: st.on_stack p
        else st.on_stack p }
  else if msg.type = "note_off" ∨ (msg.type = "note_on" ∧ msg.velocity = 0) then
    match st.on_stack msg.note with
    | [] => st
    | (s, v) :: rest =>
      { st with
        on_stack := fun p => if p = msg.note then rest else st.on_stack p,
        events := st.events ++ [⟨s, "on", msg.note, v⟩, ⟨st.t_sec, "off", msg.note, 0⟩],
        notes_tmp := st.notes_tmp ++ [(s, max (1/100) (st.t_sec - s), msg.note)] }
  else st

/-- One iteration of the message loop of `MidiSummary.from_file`
(src/daw_midi_annotator.py lines 144-161). -/
def ffStep (tpq : ℕ) (st : FFState) (msg : MidiMsg) : FFState :=
  ffBranch (ffAdvance tpq st msg) msg

/-- Python `max(iterable, default=d)`. -/
def pyMaxD (l : List ℚ) (d : ℚ) : ℚ :=
  match l with
  | [] => d
  | x :: xs => xs.foldl max x

/-- The post-loop normalisation and assembly of `MidiSummary.from_file`
(src/daw_midi_annotator.py lines 163-173).  `events.sort(key=...)` is a
stable sort by time, modelled by `List.insertionSort` (stable sorts by a
total preorder key agree as functions).  `ts` is the time signature found
by the per-track scan of lines 126-133; that scan runs over the un-merged
tracks, so it is threaded through as a parameter here. -/
def sortedEvents (st : FFState) : List SummaryEvent :=
  List.insertionSort (fun a b : SummaryEvent => a.time ≤ b.time) st.events

def firstOn (st : FFState) : ℚ :=
  (((sortedEvents st).find? (fun e => e.kind == "on")).map (·.time)).getD 0

def summarize (tpq : ℕ) (ts : ℤ × ℤ) (st : FFState) : MidiSummary :=
  let events := sortedEvents st
  let first_on := firstOn st
  let events2 := if first_on > 0 then
      events.map (fun e => ⟨e.time - first_on, e.kind, e.note, e.vel⟩) else events
  let notes := if first_on > 0 then
      st.notes_tmp.map (fun n => (n.1 - first_on, n.2.1, n.2.2)) else st.notes_tmp
  let tcs := if first_on > 0 then
      st.tempo_changes.map (fun c => (max 0 (c.1 - first_on), c.2)) else st.tempo_changes
  let duration := pyMaxD (events2.map (·.time)) 0
  { bpm := 60000000 / (st.cur_tempo : ℚ), time_sig := ts, duration_sec := duration,
    ticks_per_beat := tpq, notes := notes, events := events2, tempo_changes := tcs }

/-- `MidiSummary.from_file` (src/daw_midi_annotator.py lines 118-173) applied
to the merged track `merged = mido.merge_tracks(mid.tracks)` of a file with
`ticks_per_beat = tpq`; the library merge itself is not modelled. -/
def from_file_core (tpq : ℕ) (ts : ℤ × ℤ) (merged : List MidiMsg) : MidiSummary :=
  summarize tpq ts (merged.foldl (ffStep tpq) ⟨0, 500000, [(0, 500000)], fun _ => [], [], []⟩)

/- ===================== Claims C4 and C8 ===================== -/

/-- C4: a note-end event (explicit `note_off`, or `note_on` with velocity 0)
is paired with the most recently pushed unmatched begin of the same pitch
(the top of the per-pitch stack), and the emitted note's duration is
`max(0.01, end_time - start_time)`; concretely, begin(60) at tick 0 and
end(60) at tick 480 at 500000 µs/beat and 480 ticks/beat reconstructs the
note `(start_seconds = 0, duration_seconds = 0.5, pitch = 60)`. -/
theorem C4_lifo_pairing_and_duration_floor :
    (∀ (tpq : ℕ) (st : FFState) (msg : MidiMsg) (s : ℚ) (v : ℕ) (rest : List (ℚ × ℕ)),
      msg.isMeta = false →
      (msg.type = "note_off" ∨ (msg.type = "note_on" ∧ msg.velocity = 0)) →
      st.on_stack msg.note = (s, v) :: rest →
      (ffStep tpq st msg).notes_tmp =
        st.notes_tmp ++ [(s, max (1/100) ((ffStep tpq st msg).t_sec - s), msg.note)] ∧
      (ffStep tpq st msg).on_stack msg.note = rest ∧
      (ffStep tpq st msg).events =
        st.events ++ [⟨s, "on", msg.note, v⟩, ⟨(ffStep tpq st msg).t_sec, "off", msg.note, 0⟩]) ∧
    (from_file_core 480 (4, 4)
      [⟨0, false, "note_on", 0, 60, 80, 0, 0⟩,
       ⟨480, false, "note_off", 0, 60, 0, 0, 0⟩]).notes = [(0, 1/2, 60)] := by
  constructor
  · intro tpq st msg s v rest hmeta htype hstack
    rcases htype with h1 | h2
    · by_cases ht : msg.time = 0 <;>
        simp [ffStep, ffAdvance, ffBranch, hmeta, h1, ht, hstack]
    · by_cases ht : msg.time = 0 <;>
        simp [ffStep, ffAdvance, ffBranch, hmeta, h2.1, h2.2, ht, hstack]
  · norm_num [from_file_core, summarize, sortedEvents, firstOn, ffStep, ffAdvance, ffBranch, tick2second, pyMaxD,
      List.insertionSort, List.orderedInsert]

/-- Witness for C4: the step lemma applied to a concrete state holding a
single stacked begin for pitch 60. -/
theorem C4_witness :
    (ffStep 480 ⟨0, 500000, [(0, 500000)], fun p => if p = 60 then [(0, 80)] else [], [], []⟩
        ⟨480, false, "note_off", 0, 60, 0, 0, 0⟩).notes_tmp =
      [] ++ [(0, max (1/100)
        ((ffStep 480 ⟨0, 500000, [(0, 500000)], fun p => if p = 60 then [(0, 80)] else [], [], []⟩
          ⟨480, false, "note_off", 0, 60, 0, 0, 0⟩).t_sec - 0), 60)] ∧
    (ffStep 480 ⟨0, 500000, [(0, 500000)], fun p => if p = 60 then [(0, 80)] else [], [], []⟩
        ⟨480, false, "note_off", 0, 60, 0, 0, 0⟩).on_stack 60 = [] ∧
    (ffStep 480 ⟨0, 500000, [(0, 500000)], fun p => if p = 60 then [(0, 80)] else [], [], []⟩
        ⟨480, false, "note_off", 0, 60, 0, 0, 0⟩).events =
      [] ++ [⟨0, "on", 60, 80⟩,
        ⟨(ffStep 480 ⟨0, 500000, [(0, 500000)], fun p => if p = 60 then [(0, 80)] else [], [], []⟩
          ⟨480, false, "note_off", 0, 60, 0, 0, 0⟩).t_sec, "off", 60, 0⟩] :=
  C4_lifo_pairing_and_duration_floor.1 480
    ⟨0, 500000, [(0, 500000)], fun p => if p = 60 then [(0, 80)] else [], [], []⟩
    ⟨480, false, "note_off", 0, 60, 0, 0, 0⟩ 0 80 []
    rfl (Or.inl rfl) (by norm_num)

/-- C8: a dangling note-begin (no matching end before the stream ends)
contributes nothing to the summary — appending it to any input stream leaves
the entire reconstructed `MidiSummary` unchanged, and reconstruction is a
total function (no failure, nothing reported). -/
theorem C8_unterminated_note_dropped (tpq : ℕ) (ts : ℤ × ℤ)
    (merged : List MidiMsg) (msg : MidiMsg)
    (hmeta : msg.isMeta = false) (htype : msg.type = "note_on")
    (hvel : 0 < msg.velocity) :
    from_file_core tpq ts (merged ++ [msg]) = from_file_core tpq ts merged := by
  unfold from_file_core
  rw [List.foldl_append]
  set st := merged.foldl (ffStep tpq) ⟨0, 500000, [(0, 500000)], fun _ => [], [], []⟩ with hst
  have hfold : List.foldl (ffStep tpq) st [msg] = ffStep tpq st msg := by simp
  rw [hfold]
  have hev : (ffStep tpq st msg).events = st.events := by
    by_cases ht : msg.time = 0 <;> simp [ffStep, ffAdvance, ffBranch, hmeta, htype, hvel, ht]
  have hnotes : (ffStep tpq st msg).notes_tmp = st.notes_tmp := by
    by_cases ht : msg.time = 0 <;> simp [ffStep, ffAdvance, ffBranch, hmeta, htype, hvel, ht]
  have htc : (ffStep tpq st msg).tempo_changes = st.tempo_changes := by
    by_cases ht : msg.time = 0 <;> simp [ffStep, ffAdvance, ffBranch, hmeta, htype, hvel, ht]
  have htempo : (ffStep tpq st msg).cur_tempo = st.cur_tempo := by
    by_cases ht : msg.time = 0 <;> simp [ffStep, ffAdvance, ffBranch, hmeta, htype, hvel, ht]
  have hse : sortedEvents (ffStep tpq st msg) = sortedEvents st := by
    unfold sortedEvents
    rw [hev]
  unfold summarize firstOn
  rw [hse, hnotes, htc, htempo]

/-- Witness for C8: appending a dangling begin for pitch 61 to the two-message
stream of C4 leaves the summary unchanged. -/
theorem C8_witness :
    from_file_core 480 (4, 4)
      ([⟨0, false, "note_on", 0, 60, 80, 0, 0⟩,
        ⟨480, false, "note_off", 0, 60, 0, 0, 0⟩] ++
       [⟨120, false, "note_on", 0, 61, 70, 0, 0⟩]) =
    from_file_core 480 (4, 4)
      [⟨0, false, "note_on", 0, 60, 80, 0, 0⟩,
       ⟨480, false, "note_off", 0, 60, 0, 0, 0⟩] :=
  C8_unterminated_note_dropped 480 (4, 4)
    [⟨0, false, "note_on", 0, 60, 80, 0, 0⟩, ⟨480, false, "note_off", 0, 60, 0, 0, 0⟩]
    ⟨120, false, "note_on", 0, 61, 70, 0, 0⟩ rfl rfl (by norm_num)

/- ===================== Claim C6: normalisation ===================== -/

theorem tick2second_nonneg (t tpq tempo : ℕ) : 0 ≤ tick2second t tpq tempo := by
  unfold tick2second
  positivity

/-- Invariant of the `from_file` loop state: time is non-negative, stacked
begins are timestamped at or before the current time, every recorded event
is dominated (timewise) by some recorded on event, and every note start is
as well. -/
def GoodSt (st : FFState) : Prop :=
  0 ≤ st.t_sec ∧
  (∀ p e, e ∈ st.on_stack p → 0 ≤ e.1 ∧ e.1 ≤ st.t_sec) ∧
  (∀ e ∈ st.events, 0 ≤ e.time ∧
    ∃ e2 ∈ st.events, e2.kind = "on" ∧ e2.time ≤ e.time) ∧
  (∀ n ∈ st.notes_tmp, 0 ≤ n.1 ∧
    ∃ e2 ∈ st.events, e2.kind = "on" ∧ e2.time ≤ n.1) ∧
  (∀ c ∈ st.tempo_changes, 0 ≤ c.1)

theorem ffAdvance_good (tpq : ℕ) (st : FFState) (msg : MidiMsg)
    (hg : GoodSt st) : GoodSt (ffAdvance tpq st msg) := by
  obtain ⟨h0, hstack, hev, hnotes, htc⟩ := hg
  unfold ffAdvance
  split
  · have hnn := tick2second_nonneg msg.time tpq st.cur_tempo
    refine ⟨by simp; linarith, ?_, hev, hnotes, htc⟩
    intro p e he
    obtain ⟨h1, h2⟩ := hstack p e he
    constructor
    · exact h1
    · simp only
      linarith
  · exact ⟨h0, hstack, hev, hnotes, htc⟩

theorem ffBranch_good (st : FFState) (msg : MidiMsg)
    (hg : GoodSt st) : GoodSt (ffBranch st msg) := by
  obtain ⟨h0, hstack, hev, hnotes, htc⟩ := hg
  unfold ffBranch
  split
  · -- set_tempo
    refine ⟨h0, hstack, hev, hnotes, ?_⟩
    intro c hc
    rcases List.mem_append.mp hc with hc | hc
    · exact htc c hc
    · simp at hc
      subst hc
      exact h0
  split
  · -- other meta
    exact ⟨h0, hstack, hev, hnotes, htc⟩
  split
  · -- note_on with velocity > 0: push
    refine ⟨h0, ?_, hev, hnotes, htc⟩
    intro p e he
    simp only at he
    by_cases hp : p = msg.note
    · rw [if_pos hp] at he
      rcases List.mem_cons.mp he with he | he
      · subst he
        exact ⟨h0, le_rfl⟩
      · exact hstack p e he
    · rw [if_neg hp] at he
      exact hstack p e he
  split
  · -- note end: pop the matching stack and emit the paired events and note
    rcases hstk : st.on_stack msg.note with _ | ⟨⟨s, v⟩, rest⟩
    · simp only [hstk]
      exact ⟨h0, hstack, hev, hnotes, htc⟩
    · simp only [hstk]
      have hsv := hstack msg.note (s, v) (by rw [hstk]; exact List.mem_cons_self _ _)
      refine ⟨h0, ?_, ?_, ?_, htc⟩
      · intro p e he
        simp only at he
        by_cases hp : p = msg.note
        · rw [if_pos hp] at he
          apply hstack msg.note e
          rw [hstk]
          exact List.mem_cons_of_mem _ he
        · rw [if_neg hp] at he
          exact hstack p e he
      · intro e he
        simp only at he
        rcases List.mem_append.mp he with he | he
        · obtain ⟨h1, e2, h2, h3, h4⟩ := hev e he
          exact ⟨h1, e2, List.mem_append_left _ h2, h3, h4⟩
        · simp only [List.mem_cons, List.not_mem_nil, or_false] at he
          rcases he with he | he
          · subst he
            exact ⟨hsv.1, ⟨s, "on", msg.note, v⟩,
              List.mem_append_right _ (by simp), rfl, le_rfl⟩
          · subst he
            exact ⟨h0, ⟨s, "on", msg.note, v⟩,
              List.mem_append_right _ (by simp), rfl, hsv.2⟩
      · intro n hn
        simp only at hn
        rcases List.mem_append.mp hn with hn | hn
        · obtain ⟨h1, e2, h2, h3, h4⟩ := hnotes n hn
          exact ⟨h1, e2, List.mem_append_left _ h2, h3, h4⟩
        · simp only [List.mem_cons, List.not_mem_nil, or_false] at hn
          subst hn
          exact ⟨hsv.1, ⟨s, "on", msg.note, v⟩,
            List.mem_append_right _ (by simp), rfl, le_rfl⟩
  · exact ⟨h0, hstack, hev, hnotes, htc⟩

theorem ffStep_good (tpq : ℕ) (st : FFState) (msg : MidiMsg)
    (hg : GoodSt st) : GoodSt (ffStep tpq st msg) :=
  ffBranch_good _ _ (ffAdvance_good tpq st msg hg)

theorem foldl_ffStep_good (tpq : ℕ) :
    ∀ (l : List MidiMsg) (st : FFState), GoodSt st →
      GoodSt (l.foldl (ffStep tpq) st) := by
  intro l
  induction l with
  | nil => intro st hg; exact hg
  | cons m rest ih =>
    intro st hg
    rw [List.foldl_cons]
    exact ih _ (ffStep_good tpq st m hg)

theorem init_good : GoodSt ⟨0, 500000, [(0, 500000)], fun _ => [], [], []⟩ := by
  refine ⟨le_rfl, ?_, ?_, ?_, ?_⟩
  · intro p e he; simp at he
  · intro e he; simp at he
  · intro n hn; simp at hn
  · intro c hc
    simp at hc
    rw [hc]

instance : IsTotal SummaryEvent (fun a b => a.time ≤ b.time) :=
  ⟨fun a b => le_total a.time b.time⟩

instance : IsTrans SummaryEvent (fun a b => a.time ≤ b.time) :=
  ⟨fun _ _ _ h1 h2 => le_trans h1 h2⟩

/-- In a time-sorted event list, `find?` returns an element of minimal time
among those satisfying the predicate. -/
theorem find?_time_min (p : SummaryEvent → Bool) :
    ∀ (l : List SummaryEvent),
      l.Pairwise (fun a b => a.time ≤ b.time) →
      ∀ a, l.find? p = some a →
      ∀ b ∈ l, p b = true → a.time ≤ b.time := by
  intro l
  induction l with
  | nil => intro _ a ha; simp at ha
  | cons h t ih =>
    intro hs a ha b hb hpb
    rw [List.pairwise_cons] at hs
    rcases List.mem_cons.mp hb with hb | hb
    · subst hb
      by_cases hp : p b = true
      · rw [List.find?_cons_of_pos _ hp] at ha
        cases ha
        exact le_rfl
      · exact absurd hpb hp
    · by_cases hp : p h = true
      · rw [List.find?_cons_of_pos _ hp] at ha
        cases ha
        exact hs.1 b hb
      · rw [List.find?_cons_of_neg _ hp] at ha
        exact ih hs.2 a ha b hb hpb

/-- `find?` for the on-kind predicate commutes with a kind-preserving map. -/
theorem find?_on_map (f : SummaryEvent → SummaryEvent)
    (hk : ∀ e, (f e).kind = e.kind) :
    ∀ (l : List SummaryEvent),
      (l.map f).find? (fun e => e.kind == "on") =
        (l.find? (fun e => e.kind == "on")).map f := by
  intro l
  induction l with
  | nil => simp
  | cons h t ih =>
    rw [List.map_cons]
    by_cases hp : (h.kind == "on") = true
    · have hfp : ((f h).kind == "on") = true := by rw [hk]; exact hp
      have e1 : List.find? (fun e => e.kind == "on") (f h :: List.map f t) = some (f h) :=
        List.find?_cons_of_pos _ hfp
      have e2 : List.find? (fun e => e.kind == "on") (h :: t) = some h :=
        List.find?_cons_of_pos _ hp
      rw [e1, e2]
      simp
    · have hfp : ¬ ((f h).kind == "on") = true := by rw [hk]; exact hp
      have e1 : List.find? (fun e => e.kind == "on") (f h :: List.map f t) =
          List.find? (fun e => e.kind == "on") (List.map f t) :=
        List.find?_cons_of_neg _ hfp
      have e2 : List.find? (fun e => e.kind == "on") (h :: t) =
          List.find? (fun e => e.kind == "on") t :=
        List.find?_cons_of_neg _ hp
      rw [e1, e2]
      exact ih

theorem summarize_events (tpq : ℕ) (ts : ℤ × ℤ) (st : FFState) :
    (summarize tpq ts st).events =
      if firstOn st > 0 then
        (sortedEvents st).map (fun e => ⟨e.time - firstOn st, e.kind, e.note, e.vel⟩)
      else sortedEvents st := rfl

theorem summarize_notes (tpq : ℕ) (ts : ℤ × ℤ) (st : FFState) :
    (summarize tpq ts st).notes =
      if firstOn st > 0 then
        st.notes_tmp.map (fun n => (n.1 - firstOn st, n.2.1, n.2.2))
      else st.notes_tmp := rfl

theorem summarize_tempo_changes (tpq : ℕ) (ts : ℤ × ℤ) (st : FFState) :
    (summarize tpq ts st).tempo_changes =
      if firstOn st > 0 then
        st.tempo_changes.map (fun c => (max 0 (c.1 - firstOn st), c.2))
      else st.tempo_changes := rfl

/-- C6: after note reconstruction, times are normalised against the earliest
on event: every time in the returned events, notes and tempo_changes lists is
non-negative, and when an on event exists at all, the earliest on event of
the returned stream sits at time 0. -/
theorem C6_normalized_times_nonneg (tpq : ℕ) (ts : ℤ × ℤ) (merged : List MidiMsg) :
    (∀ e ∈ (from_file_core tpq ts merged).events, 0 ≤ e.time) ∧
    (∀ n ∈ (from_file_core tpq ts merged).notes, 0 ≤ n.1) ∧
    (∀ c ∈ (from_file_core tpq ts merged).tempo_changes, 0 ≤ c.1) ∧
    (∀ e, (from_file_core tpq ts merged).events.find? (fun e => e.kind == "on") = some e →
      e.time = 0) := by
  set st := merged.foldl (ffStep tpq) ⟨0, 500000, [(0, 500000)], fun _ => [], [], []⟩ with hst
  have hg : GoodSt st := foldl_ffStep_good tpq merged _ init_good
  obtain ⟨h0, hstack, hev, hnotes, htc⟩ := hg
  have hfc : from_file_core tpq ts merged = summarize tpq ts st := rfl
  rw [hfc, summarize_events, summarize_notes, summarize_tempo_changes]
  have hperm : ∀ x : SummaryEvent, x ∈ sortedEvents st ↔ x ∈ st.events :=
    fun x => (List.perm_insertionSort _ _).mem_iff
  have hsorted : (sortedEvents st).Pairwise (fun a b => a.time ≤ b.time) :=
    List.sorted_insertionSort _ _
  have hev' : ∀ e ∈ sortedEvents st, 0 ≤ e.time := by
    intro e he
    exact (hev e ((hperm e).mp he)).1
  rcases hfind : (sortedEvents st).find? (fun e => e.kind == "on") with _ | e0
  · -- no on event at all: first_on defaults to 0 and nothing is shifted
    have hfo : firstOn st = 0 := by
      unfold firstOn
      rw [hfind]
      rfl
    rw [hfo]
    have hno : ¬ ((0:ℚ) > 0) := by norm_num
    rw [if_neg hno, if_neg hno, if_neg hno]
    refine ⟨hev', fun n hn => (hnotes n hn).1, htc, ?_⟩
    intro e hfind2
    rw [hfind] at hfind2
    cases hfind2
  · -- e0 is the earliest on event
    have hfo : firstOn st = e0.time := by
      unfold firstOn
      rw [hfind]
      rfl
    have he0mem : e0 ∈ sortedEvents st := List.mem_of_find?_eq_some hfind
    have he0nonneg : 0 ≤ e0.time := hev' e0 he0mem
    have hmin : ∀ e ∈ sortedEvents st, e0.time ≤ e.time := by
      intro e he
      obtain ⟨_, e2, h2, h3, h4⟩ := hev e ((hperm e).mp he)
      have h5 := find?_time_min _ (sortedEvents st) hsorted e0 hfind e2
        ((hperm e2).mpr h2) (by simp [h3])
      linarith
    have hnotesmin : ∀ n ∈ st.notes_tmp, e0.time ≤ n.1 := by
      intro n hn
      obtain ⟨_, e2, h2, h3, h4⟩ := hnotes n hn
      have h5 := find?_time_min _ (sortedEvents st) hsorted e0 hfind e2
        ((hperm e2).mpr h2) (by simp [h3])
      linarith
    rw [hfo]
    by_cases hpos : e0.time > 0
    · rw [if_pos hpos, if_pos hpos, if_pos hpos]
      refine ⟨?_, ?_, ?_, ?_⟩
      · intro e he
        obtain ⟨e1, he1, heq⟩ := List.mem_map.mp he
        subst heq
        simp only
        have := hmin e1 he1
        linarith
      · intro n hn
        obtain ⟨n1, hn1, heq⟩ := List.mem_map.mp hn
        subst heq
        simp only
        have := hnotesmin n1 hn1
        linarith
      · intro c hc
        obtain ⟨c1, hc1, heq⟩ := List.mem_map.mp hc
        subst heq
        exact le_max_left 0 _
      · intro e hfind2
        rw [find?_on_map (fun e => ⟨e.time - e0.time, e.kind, e.note, e.vel⟩)
          (fun _ => rfl) (sortedEvents st)] at hfind2
        rw [hfind] at hfind2
        simp only [Option.map_some'] at hfind2
        cases hfind2
        simp
    · rw [if_neg hpos, if_neg hpos, if_neg hpos]
      have he0zero : e0.time = 0 := by
        by_contra hne
        exact hpos (lt_of_le_of_ne he0nonneg (Ne.symm hne))
      refine ⟨hev', fun n hn => (hnotes n hn).1, htc, ?_⟩
      intro e hfind2
      rw [hfind] at hfind2
      cases hfind2
      exact he0zero

/-- Witness for C6: on the two-message stream of C4, every returned time is
non-negative and the earliest on event of the result sits at time 0. -/
theorem C6_witness :
    (∀ e ∈ (from_file_core 480 (4, 4)
        [⟨0, false, "note_on", 0, 60, 80, 0, 0⟩,
         ⟨480, false, "note_off", 0, 60, 0, 0, 0⟩]).events, 0 ≤ e.time) ∧
    ((⟨0, "on", 60, 80⟩ : SummaryEvent)).time = 0 := by
  constructor
  · exact (C6_normalized_times_nonneg 480 (4, 4)
      [⟨0, false, "note_on", 0, 60, 80, 0, 0⟩,
       ⟨480, false, "note_off", 0, 60, 0, 0, 0⟩]).1
  · exact (C6_normalized_times_nonneg 480 (4, 4)
      [⟨0, false, "note_on", 0, 60, 80, 0, 0⟩,
       ⟨480, false, "note_off", 0, 60, 0, 0, 0⟩]).2.2.2 ⟨0, "on", 60, 80⟩
      (by norm_num [from_file_core, summarize, sortedEvents, firstOn, ffStep,
        ffAdvance, ffBranch, tick2second, pyMaxD, List.insertionSort,
        List.orderedInsert, List.find?])

/- ============= daw_midi_annotator._compute_active_notes_at ============= -/

/-- The dict-building loop of `_compute_active_notes_at`
(src/daw_midi_annotator.py lines 631-637): iterate events in order, break at
the first event past `t`, record `note -> max(1, vel)` on an on event, drop
the note on an off event.  The Python dict `active` is modelled as a function
from pitch to an optional velocity. -/
def computeActiveAux (t : ℚ) : List SummaryEvent → (ℕ → Option ℕ) → (ℕ → Option ℕ)
  | [], active => active
  | e :: rest, active =>
    if e.time > t then active
    else if e.kind = "on" then
      computeActiveAux t rest (fun p => if p = e.note then some (max 1 e.vel) else active p)
    else if e.kind = "off" then
      computeActiveAux t rest (fun p => if p = e.note then none else active p)
    else computeActiveAux t rest active

/-- `_compute_active_notes_at(t)` (src/daw_midi_annotator.py lines 627-638)
over the session's event list. -/
def compute_active_notes_at (events : List SummaryEvent) (t : ℚ) : ℕ → Option ℕ :=
  computeActiveAux t events (fun _ => none)

/-- One dict update of the loop above, as a function on the accumulator. -/
def activeStep (dict : ℕ → Option ℕ) (e : SummaryEvent) : ℕ → Option ℕ :=
  if e.kind = "on" then fun p => if p = e.note then some (max 1 e.vel) else dict p
  else if e.kind = "off" then fun p => if p = e.note then none else dict p
  else dict

theorem computeActiveAux_eq_foldl (t : ℚ) :
    ∀ (l : List SummaryEvent) (active : ℕ → Option ℕ),
      computeActiveAux t l active =
        (l.takeWhile (fun e => decide (e.time ≤ t))).foldl activeStep active := by
  intro l
  induction l with
  | nil => intro active; rfl
  | cons e rest ih =>
    intro active
    rw [List.takeWhile_cons]
    by_cases ht : e.time ≤ t
    · have hnt : ¬ (e.time > t) := not_lt.mpr ht
      have hd : decide (e.time ≤ t) = true := by simpa using ht
      rw [hd]
      simp only [if_true, List.foldl_cons]
      unfold computeActiveAux
      rw [if_neg hnt]
      by_cases hon : e.kind = "on"
      · rw [if_pos hon, ih]
        unfold activeStep
        rw [if_pos hon]
      · rw [if_neg hon]
        by_cases hoff : e.kind = "off"
        · rw [if_pos hoff, ih]
          unfold activeStep
          rw [if_neg hon, if_pos hoff]
        · rw [if_neg hoff, ih]
          unfold activeStep
          rw [if_neg hon, if_neg hoff]
    · have hgt : e.time > t := not_le.mp ht
      have hd : decide (e.time ≤ t) = false := by simpa using ht
      rw [hd]
      simp only [Bool.false_eq_true, if_false]
      unfold computeActiveAux
      rw [if_pos hgt]
      rfl

theorem takeWhile_time_eq_filter (t : ℚ) :
    ∀ (l : List SummaryEvent), l.Pairwise (fun a b => a.time ≤ b.time) →
      l.takeWhile (fun e => decide (e.time ≤ t)) =
        l.filter (fun e => decide (e.time ≤ t)) := by
  intro l
  induction l with
  | nil => intro _; rfl
  | cons e rest ih =>
    intro hs
    rw [List.pairwise_cons] at hs
    rw [List.takeWhile_cons, List.filter_cons]
    by_cases ht : e.time ≤ t
    · have hd : decide (e.time ≤ t) = true := by simpa using ht
      rw [hd]
      simp only [if_true]
      rw [ih hs.2]
    · have hd : decide (e.time ≤ t) = false := by simpa using ht
      rw [hd]
      simp only [Bool.false_eq_true, if_false]
      have : rest.filter (fun e => decide (e.time ≤ t)) = [] := by
        rw [List.filter_eq_nil_iff]
        intro x hx
        have := hs.1 x hx
        simp only [decide_eq_true_eq]
        intro hc
        exact ht (le_trans this hc)
      rw [this]

theorem foldl_activeStep_lookup :
    ∀ (l : List SummaryEvent), (∀ e ∈ l, e.kind = "on" ∨ e.kind = "off") →
      ∀ (acc : ℕ → Option ℕ) (p : ℕ),
      l.foldl activeStep acc p =
        match (l.filter (fun e => decide (e.note = p))).getLast? with
        | none => acc p
        | some e => if e.kind = "on" then some (max 1 e.vel) else none := by
  intro l
  induction l using List.reverseRecOn with
  | nil => intro _ acc p; rfl
  | append_singleton l e ih =>
    intro hk acc p
    have hkl : ∀ x ∈ l, x.kind = "on" ∨ x.kind = "off" :=
      fun x hx => hk x (List.mem_append_left _ hx)
    have hke : e.kind = "on" ∨ e.kind = "off" :=
      hk e (List.mem_append_right _ (by simp))
    rw [List.foldl_append, List.foldl_cons, List.foldl_nil, List.filter_append]
    by_cases hp : e.note = p
    · have hfe : List.filter (fun x => decide (x.note = p)) [e] = [e] := by simp [hp]
      rw [hfe]
      have hlast : (List.filter (fun x => decide (x.note = p)) l ++ [e]).getLast? = some e := by
        simp
      rw [hlast]
      show activeStep (List.foldl activeStep acc l) e p =
        if e.kind = "on" then some (max 1 e.vel) else none
      unfold activeStep
      rcases hke with hke | hke
      · rw [if_pos hke, if_pos hke]
        simp [hp]
      · have hon : ¬ e.kind = "on" := by rw [hke]; simp
        rw [if_neg hon, if_pos hke, if_neg hon]
        simp [hp]
    · have hfe : List.filter (fun x => decide (x.note = p)) [e] = [] := by simp [hp]
      rw [hfe, List.append_nil]
      have hacc : activeStep (List.foldl activeStep acc l) e p =
          List.foldl activeStep acc l p := by
        unfold activeStep
        have hpp : ¬ (p = e.note) := fun hc => hp hc.symm
        rcases hke with hke | hke
        · rw [if_pos hke]
          exact if_neg hpp
        · have hon : ¬ e.kind = "on" := by rw [hke]; simp
          rw [if_neg hon, if_pos hke]
          exact if_neg hpp
      rw [hacc]
      exact ih hkl acc p

/-- C3 (amended): for a time-sorted reconstructed event list (kinds "on" and
"off"), the re-primed active set is keyed per pitch — so at most one note-on
per pitch is issued at the start of the audio loop — and pitch `p` is active
with velocity `max(1, v)` exactly when the LAST on/off event for `p` at time
`≤ t` is an on event with velocity `v`.  (The claimed paired-on/off
characterisation only coincides with this when same-pitch notes never
overlap; see the counterexample.) -/
theorem C3_active_notes_last_event_characterization
    (events : List SummaryEvent) (t : ℚ) (p : ℕ)
    (hsorted : events.Pairwise (fun a b => a.time ≤ b.time))
    (hkinds : ∀ e ∈ events, e.kind = "on" ∨ e.kind = "off") :
    compute_active_notes_at events t p =
      match ((events.filter (fun e => decide (e.time ≤ t))).filter
          (fun e => decide (e.note = p))).getLast? with
      | none => none
      | some e => if e.kind = "on" then some (max 1 e.vel) else none := by
  unfold compute_active_notes_at
  rw [computeActiveAux_eq_foldl, takeWhile_time_eq_filter t events hsorted]
  exact foldl_activeStep_lookup (events.filter (fun e => decide (e.time ≤ t)))
    (fun e he => hkinds e (List.mem_of_mem_filter he)) (fun _ => none) p

/-- Witness for C3: a single on event at time 0 for pitch 60 is active at
time 1 with its velocity. -/
theorem C3_witness :
    compute_active_notes_at [⟨0, "on", 60, 80⟩] 1 60 =
      match (((([⟨0, "on", 60, 80⟩] : List SummaryEvent).filter
          (fun e => decide (e.time ≤ 1))).filter
          (fun e => decide (e.note = 60)))).getLast? with
      | none => none
      | some e => if e.kind = "on" then some (max 1 e.vel) else none :=
  C3_active_notes_last_event_characterization [⟨0, "on", 60, 80⟩] 1 60
    (by simp) (by intro e he; simp at he; rw [he]; left; rfl)

/-- Counterexample to C3 as stated: with two overlapping notes of the same
pitch (LIFO-paired as (1s,2s) and (0s,3s)), pitch 60 has a paired on event at
0 ≤ 2.5 whose matching off is at 3 > 2.5 — the reconstructed note (0, 3, 60)
spans t = 2.5 — yet the computed active set is empty at 2.5, because the
single off event at 2 wiped the dict entry for pitch 60. -/
theorem C3_counterexample :
    compute_active_notes_at
      (from_file_core 480 (4, 4)
        [⟨0, false, "note_on", 0, 60, 80, 0, 0⟩,
         ⟨960, false, "note_on", 0, 60, 80, 0, 0⟩,
         ⟨960, false, "note_off", 0, 60, 0, 0, 0⟩,
         ⟨960, false, "note_off", 0, 60, 0, 0, 0⟩]).events (5/2) 60 = none ∧
    (from_file_core 480 (4, 4)
        [⟨0, false, "note_on", 0, 60, 80, 0, 0⟩,
         ⟨960, false, "note_on", 0, 60, 80, 0, 0⟩,
         ⟨960, false, "note_off", 0, 60, 0, 0, 0⟩,
         ⟨960, false, "note_off", 0, 60, 0, 0, 0⟩]).events =
      [⟨0, "on", 60, 80⟩, ⟨1, "on", 60, 80⟩, ⟨2, "off", 60, 0⟩, ⟨3, "off", 60, 0⟩] ∧
    ∃ n ∈ (from_file_core 480 (4, 4)
        [⟨0, false, "note_on", 0, 60, 80, 0, 0⟩,
         ⟨960, false, "note_on", 0, 60, 80, 0, 0⟩,
         ⟨960, false, "note_off", 0, 60, 0, 0, 0⟩,
         ⟨960, false, "note_off", 0, 60, 0, 0, 0⟩]).notes,
      n.2.2 = 60 ∧ n.1 ≤ 5/2 ∧ 5/2 < n.1 + n.2.1 := by
  have hev : (from_file_core 480 (4, 4)
        [⟨0, false, "note_on", 0, 60, 80, 0, 0⟩,
         ⟨960, false, "note_on", 0, 60, 80, 0, 0⟩,
         ⟨960, false, "note_off", 0, 60, 0, 0, 0⟩,
         ⟨960, false, "note_off", 0, 60, 0, 0, 0⟩]).events =
      [⟨0, "on", 60, 80⟩, ⟨1, "on", 60, 80⟩, ⟨2, "off", 60, 0⟩, ⟨3, "off", 60, 0⟩] := by
    norm_num [from_file_core, summarize, sortedEvents, firstOn, ffStep, ffAdvance,
      ffBranch, tick2second, pyMaxD, List.insertionSort, List.orderedInsert,
      List.find?]
  have hnt : (from_file_core 480 (4, 4)
        [⟨0, false, "note_on", 0, 60, 80, 0, 0⟩,
         ⟨960, false, "note_on", 0, 60, 80, 0, 0⟩,
         ⟨960, false, "note_off", 0, 60, 0, 0, 0⟩,
         ⟨960, false, "note_off", 0, 60, 0, 0, 0⟩]).notes =
      [(1, 1, 60), (0, 3, 60)] := by
    norm_num [from_file_core, summarize, sortedEvents, firstOn, ffStep, ffAdvance,
      ffBranch, tick2second, pyMaxD, List.insertionSort, List.orderedInsert,
      List.find?]
  refine ⟨?_, hev, (0, 3, 60), ?_, rfl, by norm_num, by norm_num⟩
  · rw [hev]
    norm_num [compute_active_notes_at, computeActiveAux]
    simp
  · rw [hnt]
    simp

/- ===================== Claim C9: play length ===================== -/

/-- `measure_len_sec` (src/daw_midi_annotator.py lines 1233-1237):
`beats_per_measure = (4 / tsd) * tsn; return (60.0 / bpm) * beats_per_measure`. -/
def measure_len_sec (bpm : ℚ) (ts_num ts_den : ℤ) : ℚ :=
  (60 / bpm) * ((4 / (ts_den : ℚ)) * (ts_num : ℚ))

/-- The play-length computation of `on_play` (src/daw_midi_annotator.py lines
1243-1246): `max(t for t, *_ in events) + 1.0` when the loaded summary has
events, else `measure_len_sec() * total_measures`.  An absent `self.midi`
behaves like an empty event list. -/
def play_length_sec (events : List SummaryEvent) (bpm : ℚ)
    (ts_num ts_den total_measures : ℤ) : ℚ :=
  match events with
  | e :: rest => (rest.map (·.time)).foldl max e.time + 1
  | [] => measure_len_sec bpm ts_num ts_den * (total_measures : ℚ)

theorem foldl_max_ge_init (a : ℚ) : ∀ (l : List ℚ), a ≤ l.foldl max a := by
  intro l
  induction l generalizing a with
  | nil => exact le_rfl
  | cons x xs ih =>
    rw [List.foldl_cons]
    exact le_trans (le_max_left a x) (ih (max a x))

theorem foldl_max_ge_mem (a : ℚ) :
    ∀ (l : List ℚ), ∀ x ∈ l, x ≤ l.foldl max a := by
  intro l
  induction l generalizing a with
  | nil => intro x hx; simp at hx
  | cons y ys ih =>
    intro x hx
    rw [List.foldl_cons]
    rcases List.mem_cons.mp hx with hx | hx
    · subst hx
      exact le_trans (le_max_right a x) (foldl_max_ge_init _ ys)
    · exact ih (max a y) x hx

theorem foldl_max_mem (a : ℚ) :
    ∀ (l : List ℚ), l.foldl max a = a ∨ l.foldl max a ∈ l := by
  intro l
  induction l generalizing a with
  | nil => left; rfl
  | cons y ys ih =>
    rw [List.foldl_cons]
    rcases ih (max a y) with h | h
    · rcases le_total a y with hay | hay
      · right
        rw [h, max_eq_right hay]
        exact List.mem_cons_self _ _
      · left
        rw [h, max_eq_left hay]
    · right
      exact List.mem_cons_of_mem _ h

/-- Counterexample to C9 as stated: with a single event at 0.5 s, bpm 120,
4/4 and 10 total measures, the play length is 1.5 s, strictly less than the
measure-length product 20 s — the code takes "last event + 1" whenever events
exist, not the later of the two quantities. -/
theorem C9_counterexample :
    play_length_sec [⟨1/2, "on", 60, 80⟩] 120 4 4 10 = 3/2 ∧
    measure_len_sec 120 4 4 * 10 = 20 ∧
    ¬ (measure_len_sec 120 4 4 * 10 ≤ play_length_sec [⟨1/2, "on", 60, 80⟩] 120 4 4 10) := by
  refine ⟨?_, ?_, ?_⟩ <;> norm_num [play_length_sec, measure_len_sec]

/-- C9 (amended): when events exist the play length equals the maximal event
time plus one second of trailing silence (hence it is at least every event
time + 1, but it is NOT bounded below by measure length × total measures);
only with no events does it equal measure length × total measures. -/
theorem C9_play_length_characterization (events : List SummaryEvent) (bpm : ℚ)
    (ts_num ts_den total_measures : ℤ) :
    (events ≠ [] →
      ∃ e ∈ events, play_length_sec events bpm ts_num ts_den total_measures = e.time + 1 ∧
        ∀ x ∈ events, x.time ≤ e.time) ∧
    (events = [] →
      play_length_sec events bpm ts_num ts_den total_measures =
        measure_len_sec bpm ts_num ts_den * (total_measures : ℚ)) := by
  constructor
  · intro hne
    match events with
    | [] => exact absurd rfl hne
    | e0 :: rest =>
      have hmax := foldl_max_mem e0.time (rest.map (·.time))
      rcases hmax with h | h
      · refine ⟨e0, List.mem_cons_self _ _, ?_, ?_⟩
        · show (rest.map (·.time)).foldl max e0.time + 1 = e0.time + 1
          rw [h]
        · intro x hx
          rcases List.mem_cons.mp hx with hx | hx
          · subst hx
            exact le_rfl
          · have hm : x.time ∈ rest.map (·.time) := List.mem_map_of_mem _ hx
            have h2 := foldl_max_ge_mem e0.time (rest.map (·.time)) x.time hm
            rw [h] at h2
            exact h2
      · obtain ⟨e1, he1, heq⟩ := List.mem_map.mp h
        refine ⟨e1, List.mem_cons_of_mem _ he1, ?_, ?_⟩
        · show (rest.map (·.time)).foldl max e0.time + 1 = e1.time + 1
          rw [heq]
        · intro x hx
          rw [heq]
          rcases List.mem_cons.mp hx with hx | hx
          · subst hx
            exact foldl_max_ge_init _ _
          · exact foldl_max_ge_mem e0.time (rest.map (·.time)) x.time
              (List.mem_map_of_mem _ hx)
  · intro he
    subst he
    rfl

/-- Witness for C9: the single-event case evaluates to its event time + 1,
and the empty case to the measure product. -/
theorem C9_witness :
    (∃ e ∈ ([⟨1/2, "on", 60, 80⟩] : List SummaryEvent),
      play_length_sec [⟨1/2, "on", 60, 80⟩] 120 4 4 10 = e.time + 1 ∧
        ∀ x ∈ ([⟨1/2, "on", 60, 80⟩] : List SummaryEvent), x.time ≤ e.time) ∧
    play_length_sec [] 120 4 4 10 = measure_len_sec 120 4 4 * (10 : ℚ) :=
  ⟨(C9_play_length_characterization [⟨1/2, "on", 60, 80⟩] 120 4 4 10).1 (by simp),
   (C9_play_length_characterization [] 120 4 4 10).2 rfl⟩

/- ===================== Claim C5: build_click_events ===================== -/

/-- The `while t < t1 - 1e-9 and t < end_time - 1e-9` beat loop of
`build_click_events` (src/daw_midi_annotator.py lines 189-199), emitting a
`click_on`/`click_off` pair per beat on channel 9 and threading `beat_idx`.
`CLICK_NOTE_STRONG = 37`, `CLICK_NOTE_WEAK = 42`, click length 0.03 s.
The source loop does not terminate when the seconds-per-beat is not
positive, so `0 < spb` is part of the guard here; every theorem below
assumes positive tempo values. -/
def clickLoop (t1 end_time spb beats_per_measure : ℚ) (accent_vel weak_vel : ℕ)
    (t : ℚ) (beat_idx : ℕ) : List (ℚ × String × ℕ × ℕ × ℕ) × ℕ :=
  if h : t < t1 - 1/1000000000 ∧ t < end_time - 1/1000000000 ∧ 0 < spb then
    let is_downbeat := (beat_idx : ℤ) % pyRound beats_per_measure = 0
    let note : ℕ := if is_downbeat then 37 else 42
    let vel := if is_downbeat then accent_vel else weak_vel
    let res := clickLoop t1 end_time spb beats_per_measure accent_vel weak_vel
      (t + spb) (beat_idx + 1)
    ((t, "click_on", note, vel, 9) :: (t + 3/100, "click_off", note, 0, 9) :: res.1,
      res.2)
  else ([], beat_idx)
termination_by (⌈(t1 - t)/spb⌉).toNat
decreasing_by
  have h1 := h.1
  have h3 := h.2.2
  have hne : spb ≠ 0 := ne_of_gt h3
  have key : (t1 - (t + spb)) / spb = (t1 - t) / spb - 1 := by
    field_simp
    ring
  have hpos : 0 < ⌈(t1 - t) / spb⌉ := Int.ceil_pos.mpr (div_pos (by linarith) h3)
  rw [key, Int.ceil_sub_one]
  omega

/-- The `segs` construction of `build_click_events`
(src/daw_midi_annotator.py lines 182-185): each tempo change spans until the
next change's start, the last until `end_time`. -/
def mkSegs (tempo_changes : List (ℚ × ℕ)) (end_time : ℚ) : List (ℚ × ℚ × ℕ) :=
  match tempo_changes with
  | [] => []
  | (t0, u) :: rest =>
    match rest with
    | [] => [(t0, end_time, u)]
    | (t1, _) :: _ => (t0, t1, u) :: mkSegs rest end_time

/-- The `for t0, t1, uspb in segs` loop of `build_click_events`
(src/daw_midi_annotator.py lines 188-199), carrying `beat_idx` across
segments. -/
def clickSegsLoop (end_time beats_per_measure : ℚ) (accent_vel weak_vel : ℕ) :
    List (ℚ × ℚ × ℕ) → ℕ → List (ℚ × String × ℕ × ℕ × ℕ)
  | [], _ => []
  | (t0, t1, uspb) :: rest, beat_idx =>
    let spb := (uspb : ℚ) / 1000000
    let res := clickLoop t1 end_time spb beats_per_measure accent_vel weak_vel t0 beat_idx
    res.1 ++ clickSegsLoop end_time beats_per_measure accent_vel weak_vel rest res.2

/-- `build_click_events` (src/daw_midi_annotator.py lines 176-201); the final
`beat_events.sort(key=lambda x: x[0])` is a stable sort by time, modelled by
`List.insertionSort`. -/
def build_click_events (tempo_changes : List (ℚ × ℕ)) (end_time : ℚ)
    (beats_per_measure : ℚ) (accent_vel weak_vel : ℕ) :
    List (ℚ × String × ℕ × ℕ × ℕ) :=
  List.insertionSort (fun a b => a.1 ≤ b.1)
    (clickSegsLoop end_time beats_per_measure accent_vel weak_vel
      (mkSegs tempo_changes end_time) 0)

/-- The claim-side shape of one beat's pair of click events, for a beat at
time `b.1` with running beat index `b.2`: a strong (pitch 37) accented click
exactly when the running index modulo `round(beats_per_measure)` is zero,
weak (pitch 42) otherwise, and the off event exactly 0.03 s after the on. -/
def clickPair (beats_per_measure : ℚ) (accent_vel weak_vel : ℕ) (b : ℚ × ℕ) :
    List (ℚ × String × ℕ × ℕ × ℕ) :=
  [(b.1, "click_on", if (b.2 : ℤ) % pyRound beats_per_measure = 0 then 37 else 42,
    if (b.2 : ℤ) % pyRound beats_per_measure = 0 then accent_vel else weak_vel, 9),
   (b.1 + 3/100, "click_off",
    if (b.2 : ℤ) % pyRound beats_per_measure = 0 then 37 else 42, 0, 9)]

instance : IsTotal (ℚ × String × ℕ × ℕ × ℕ) (fun a b => a.1 ≤ b.1) :=
  ⟨fun a b => le_total a.1 b.1⟩

instance : IsTrans (ℚ × String × ℕ × ℕ × ℕ) (fun a b => a.1 ≤ b.1) :=
  ⟨fun _ _ _ h1 h2 => le_trans h1 h2⟩

theorem clickLoop_spec (t1 end_time spb bpm : ℚ) (av wv : ℕ) :
    ∀ t bi, ∃ n : ℕ,
      (clickLoop t1 end_time spb bpm av wv t bi).2 = bi + n ∧
      (clickLoop t1 end_time spb bpm av wv t bi).1 =
        ((List.range n).map (fun j : ℕ => (t + (j : ℚ) * spb, bi + j))).flatMap
          (clickPair bpm av wv) := by
  intro t bi
  induction t, bi using clickLoop.induct t1 end_time spb bpm av wv with
  | case1 t bi h ih =>
    obtain ⟨n, hn2, hn1⟩ := ih
    refine ⟨n + 1, ?_, ?_⟩
    · rw [clickLoop]
      simp only [dif_pos h]
      show (clickLoop t1 end_time spb bpm av wv (t + spb) (bi + 1)).2 = bi + (n + 1)
      rw [hn2]
      omega
    · rw [clickLoop]
      simp only [dif_pos h]
      show ((t, "click_on",
          (if (bi : ℤ) % pyRound bpm = 0 then (37:ℕ) else 42),
          (if (bi : ℤ) % pyRound bpm = 0 then av else wv), 9) ::
        (t + 3/100, "click_off",
          (if (bi : ℤ) % pyRound bpm = 0 then (37:ℕ) else 42), 0, 9) ::
        (clickLoop t1 end_time spb bpm av wv (t + spb) (bi + 1)).1) =
        ((List.range (n+1)).map (fun j : ℕ => (t + (j : ℚ) * spb, bi + j))).flatMap
          (clickPair bpm av wv)
      rw [hn1, List.range_succ_eq_map, List.map_cons, List.flatMap_cons, List.map_map]
      have hmap : (List.map ((fun j : ℕ => (t + (j : ℚ) * spb, bi + j)) ∘ Nat.succ)
          (List.range n)).flatMap (clickPair bpm av wv) =
          (List.map (fun j : ℕ => (t + spb + (j : ℚ) * spb, bi + 1 + j))
            (List.range n)).flatMap (clickPair bpm av wv) := by
        congr 1
        apply List.map_congr_left
        intro j _
        simp only [Function.comp_apply, Nat.succ_eq_add_one, Prod.mk.injEq]
        constructor
        · push_cast
          ring
        · omega
      rw [hmap]
      unfold clickPair
      norm_num
  | case2 t bi h =>
    refine ⟨0, ?_, ?_⟩
    · rw [clickLoop]
      simp only [dif_neg h]
      omega
    · rw [clickLoop]
      simp only [dif_neg h]
      rfl

theorem clickSegsLoop_spec (end_time bpm : ℚ) (av wv : ℕ) :
    ∀ (segs : List (ℚ × ℚ × ℕ)) (bi : ℕ),
      ∃ beats : List (ℚ × ℕ),
        clickSegsLoop end_time bpm av wv segs bi =
          beats.flatMap (clickPair bpm av wv) ∧
        beats.map Prod.snd = List.range' bi beats.length := by
  intro segs
  induction segs with
  | nil =>
    intro bi
    exact ⟨[], rfl, rfl⟩
  | cons seg rest ih =>
    intro bi
    obtain ⟨t0, t1, uspb⟩ := seg
    obtain ⟨n, hn2, hn1⟩ :=
      clickLoop_spec t1 end_time ((uspb : ℚ)/1000000) bpm av wv t0 bi
    obtain ⟨beatsTail, htail1, htail2⟩ :=
      ih ((clickLoop t1 end_time ((uspb : ℚ)/1000000) bpm av wv t0 bi).2)
    refine ⟨(List.range n).map
        (fun j : ℕ => (t0 + (j : ℚ) * ((uspb : ℚ)/1000000), bi + j)) ++ beatsTail,
      ?_, ?_⟩
    · show (clickLoop t1 end_time ((uspb : ℚ)/1000000) bpm av wv t0 bi).1 ++
        clickSegsLoop end_time bpm av wv rest
          ((clickLoop t1 end_time ((uspb : ℚ)/1000000) bpm av wv t0 bi).2) =
        ((List.range n).map
          (fun j : ℕ => (t0 + (j : ℚ) * ((uspb : ℚ)/1000000), bi + j)) ++
          beatsTail).flatMap (clickPair bpm av wv)
      rw [List.flatMap_append, hn1, htail1]
    · rw [List.map_append, List.map_map, List.length_append, List.length_map,
        List.length_range]
      have hsnd : List.map (Prod.snd ∘
          (fun j : ℕ => (t0 + (j : ℚ) * ((uspb : ℚ)/1000000), bi + j)))
          (List.range n) = List.range' bi n := by
        rw [List.range'_eq_map_range]
        apply List.map_congr_left
        intro j _
        rfl
      rw [hsnd, htail2, hn2]
      have h3 := List.range'_append bi n beatsTail.length 1
      simp only [one_mul] at h3
      rw [h3]
      congr 1
      omega

/-- C5: for every tempo-change list (with positive tempo values), end time
and beats-per-measure (with a positive Python-rounded value), the click
stream is, before the final sort, exactly a run of per-beat on/off pairs
`clickPair`: the strong pitch 37 with the accent velocity appears exactly on
beats whose running index modulo `round(beats_per_measure)` is zero (weak
pitch 42 otherwise), each off event is exactly 0.03 s after its paired on,
the running beat index is consecutive from 0 across all tempo segments
without resetting, and the returned list is the time-sorted permutation of
those pairs, sorted ascending by time. -/
theorem C5_click_stream_structure (tempo_changes : List (ℚ × ℕ))
    (end_time beats_per_measure : ℚ) (accent_vel weak_vel : ℕ)
    (htempo : ∀ c ∈ tempo_changes, 0 < c.2)
    (hround : 0 < pyRound beats_per_measure) :
    ∃ beats : List (ℚ × ℕ),
      beats.map Prod.snd = List.range beats.length ∧
      clickSegsLoop end_time beats_per_measure accent_vel weak_vel
        (mkSegs tempo_changes end_time) 0 =
        beats.flatMap (clickPair beats_per_measure accent_vel weak_vel) ∧
      build_click_events tempo_changes end_time beats_per_measure accent_vel weak_vel =
        List.insertionSort (fun a b => a.1 ≤ b.1)
          (beats.flatMap (clickPair beats_per_measure accent_vel weak_vel)) ∧
      (build_click_events tempo_changes end_time beats_per_measure
        accent_vel weak_vel).Pairwise (fun a b => a.1 ≤ b.1) := by
  obtain ⟨beats, h1, h2⟩ := clickSegsLoop_spec end_time beats_per_measure
    accent_vel weak_vel (mkSegs tempo_changes end_time) 0
  refine ⟨beats, ?_, h1, ?_, ?_⟩
  · rw [h2, List.range_eq_range']
  · unfold build_click_events
    rw [h1]
  · exact List.sorted_insertionSort _ _

/-- Witness for C5: a single 120 BPM segment, one second of clicks, 4 beats
per measure. -/
theorem C5_witness :
    ∃ beats : List (ℚ × ℕ),
      beats.map Prod.snd = List.range beats.length ∧
      clickSegsLoop 1 4 115 85 (mkSegs [(0, 500000)] 1) 0 =
        beats.flatMap (clickPair 4 115 85) ∧
      build_click_events [(0, 500000)] 1 4 115 85 =
        List.insertionSort (fun a b => a.1 ≤ b.1) (beats.flatMap (clickPair 4 115 85)) ∧
      (build_click_events [(0, 500000)] 1 4 115 85).Pairwise (fun a b => a.1 ≤ b.1) :=
  C5_click_stream_structure [(0, 500000)] 1 4 115 85
    (by intro c hc; simp at hc; rw [hc]; norm_num)
    (by norm_num [pyRound])
